import Mathlib

/-
Verification of ynabinterfaceslib (Python) against its natural-language
specification, via a shallow embedding of the relevant code in Lean 4.

Embedded code (src/ynabinterfaceslib/ynabinterfaceslib.py):
  * Transaction._clean_up(string) = " ".join(string.split()).replace(chr 0, "")
  * Comparable._comparable_data / __hash__ / __eq__ / __ne__
  * AccountAuthenticator.get_authenticated_session / quit

Python's builtin hash is not part of this repository, so it is modelled as
a parameter (h : String → Int) to the Comparable operations.  The external
requests Session.cookies.set call is likewise modelled by a parameter
describing on which (cleaned) cookies it raises.
-/

namespace Ynab

/-! ## Model of Python strings and Transaction._clean_up -/

/-- The set of characters Python's str.split() treats as whitespace
(Unicode whitespace as used by CPython's string splitting).  Note that
the NUL character (code 0) is NOT whitespace in Python. -/
def isPySpace (c : Char) : Bool :=
  let n := c.toNat
  (9 ≤ n && n ≤ 13) || (28 ≤ n && n ≤ 32) || n == 133 || n == 160 ||
  n == 0x1680 || (0x2000 ≤ n && n ≤ 0x200A) || n == 0x2028 || n == 0x2029 ||
  n == 0x202F || n == 0x205F || n == 0x3000

/-- The ASCII space character. -/
def spaceChar : Char := Char.ofNat 32

/-- The NUL character, removed by the .replace call in _clean_up. -/
def nulChar : Char := Char.ofNat 0

/-- Accumulator-passing splitter: Python str.split() with no arguments,
which returns the maximal runs of non-whitespace characters. -/
def pySplitAux : List Char → List Char → List (List Char)
  | [], acc =>
    match acc.isEmpty with
    | true => []
    | false => [acc.reverse]
  | c :: rest, acc =>
    match isPySpace c with
    | false => pySplitAux rest (c :: acc)
    | true =>
      match acc.isEmpty with
      | true => pySplitAux rest []
      | false => acc.reverse :: pySplitAux rest []

/-- Python string.split() (no arguments) on the character list of a string. -/
def pySplit (l : List Char) : List (List Char) := pySplitAux l []

/-- Python " ".join(words): interleave a single space between the words. -/
def joinWords : List (List Char) → List Char
  | [] => []
  | [w] => w
  | w :: w2 :: ws => w ++ spaceChar :: joinWords (w2 :: ws)

/-- Transaction._clean_up:  " ".join(string.split()).replace(chr 0, "").
The NUL-removal happens AFTER the whitespace collapse. -/
def Transaction.clean_up (s : String) : String :=
  String.mk ((joinWords (pySplit s.data)).filter (fun c => !(c == nulChar)))

/-- A character list contains no NUL character. -/
def noNul (l : List Char) : Bool := l.all (fun c => !(c == nulChar))

/-- No two consecutive characters are both whitespace (executable form). -/
def noWsRun : List Char → Bool
  | [] => true
  | [_] => true
  | a :: b :: rest => !(isPySpace a && isPySpace b) && noWsRun (b :: rest)

/-- No two consecutive characters are both whitespace (relational form). -/
def NoWsRun (l : List Char) : Prop :=
  l.Chain' (fun a b => ¬(isPySpace a = true ∧ isPySpace b = true))

/-- Neither the first nor the last character is whitespace (executable). -/
def strippedWs (l : List Char) : Bool :=
  (match l.head? with
   | none => true
   | some c => !isPySpace c) &&
  (match l.getLast? with
   | none => true
   | some c => !isPySpace c)

/-! ## Model of Comparable -/

/-- A Comparable instance: the opaque `_data` payload stored by __init__,
the subclass's `_comparable_attributes` (an ordered list of attribute
names), and attribute lookup (`getattr`), returning each attribute value's
textual representation. -/
structure Comparable where
  pdata : String
  attrs : List String
  attrVal : String → String

/-- Key dedup of a Python dict comprehension: first occurrence kept. -/
def dedupKeysAux (seen : List String) : List String → List String
  | [] => []
  | k :: rest =>
    match seen.contains k with
    | true => dedupKeysAux seen rest
    | false => k :: dedupKeysAux (k :: seen) rest

/-- Keys of the dict comprehension over _comparable_attributes, in order,
with duplicates collapsed as a Python dict does. -/
def dedupKeys (l : List String) : List String := dedupKeysAux [] l

/-- Comparable._comparable_data: the ordered key-to-value mapping built
from the declared attribute names in declared order. -/
def comparableData (x : Comparable) : List (String × String) :=
  (dedupKeys x.attrs).map (fun k => (k, x.attrVal k))

/-- A single-quote character (code 39), used by Python repr of strings. -/
def pyQuote : String := String.singleton (Char.ofNat 39)

/-- Textual form of one key/value entry inside str(OrderedDict(...)). -/
def reprEntry (p : String × String) : String :=
  "(" ++ pyQuote ++ p.1 ++ pyQuote ++ ", " ++ p.2 ++ ")"

/-- str() of the OrderedDict built by _comparable_data. -/
def serializeData (d : List (String × String)) : String :=
  "OrderedDict([" ++ String.intercalate (", ") (d.map reprEntry) ++ "])"

/-- Comparable.__hash__ = h(str(self._comparable_data)), where h is the
Python builtin hash on strings (a parameter of the model). -/
def pyHash (h : String → Int) (x : Comparable) : Int :=
  h (serializeData (comparableData x))

/-- The right operand of == / != as seen by __eq__ / __ne__: either a
Comparable instance or any non-Comparable Python object. -/
inductive PyObject where
  | cmp (x : Comparable)
  | other (desc : String)

/-- Comparable.__eq__: raises ValueError on a non-Comparable operand,
otherwise returns hash(self) == hash(other). -/
def py_eq (h : String → Int) (x : Comparable) : PyObject → Except String Bool
  | .cmp y => .ok (pyHash h x == pyHash h y)
  | .other _ => .error ("Not a Comparable object")

/-- Comparable.__ne__: raises ValueError on a non-Comparable operand,
otherwise returns hash(self) != hash(other). -/
def py_ne (h : String → Int) (x : Comparable) : PyObject → Except String Bool
  | .cmp y => .ok (!(pyHash h x == pyHash h y))
  | .other _ => .error ("Not a Comparable object")

/-! ## Model of AccountAuthenticator cookie transfer -/

/-- A browser cookie: a Python dict of string keys and values. -/
abbrev Cookie := List (String × String)

/-- Python `invalid in cookie` membership test on the dict. -/
def hasKey (c : Cookie) (k : String) : Bool := c.any (fun p => p.1 == k)

/-- Python `del cookie[k]`: removes the key, raising KeyError if absent. -/
def delItem (c : Cookie) (k : String) : Except String Cookie :=
  if hasKey c k then .ok (c.filter (fun p => !(p.1 == k)))
  else .error ("KeyError")

/-- The try/del/except-KeyError-pass block around each deletion. -/
def tryDelItem (c : Cookie) (k : String) : Cookie :=
  match delItem c k with
  | .ok c2 => c2
  | .error _ => c

/-- The keys stripped from every browser cookie before session.cookies.set. -/
def invalidKeys : List String := ["httpOnly", "expiry"]

/-- The inner for-loop body of get_authenticated_session: delete the two
invalid keys from one cookie, ignoring their absence. -/
def cleanCookie (c : Cookie) : Cookie := invalidKeys.foldl tryDelItem c

/-- A requests Session: its cookie jar. -/
structure Session where
  cookies : List Cookie

/-- The headless browser driver: its cookie jar and whether it is open. -/
structure Driver where
  cookies : List Cookie
  isOpen : Bool

/-- AccountAuthenticator.quit: closes the headless browser. -/
def Driver.quit (d : Driver) : Driver := { d with isOpen := false }

/-- The cookie-transfer for-loop.  `fails` models on which (cleaned)
cookies the external session.cookies.set call raises. -/
def transferLoop (fails : Cookie → Bool) (s : Session) :
    List Cookie → Except String Session
  | [] => .ok s
  | c :: rest =>
    let c2 := cleanCookie c
    if fails c2 then .error ("set failed")
    else transferLoop fails ⟨s.cookies ++ [c2]⟩ rest

/-- AccountAuthenticator.get_authenticated_session: build a fresh Session,
transfer every browser cookie into it (with httpOnly/expiry stripped),
then quit the browser and return the session.  An exception raised during
transfer propagates before quit is reached; the error case therefore
carries the unchanged driver state. -/
def get_authenticated_session (fails : Cookie → Bool) (d : Driver) :
    Except (String × Driver) (Session × Driver) :=
  match transferLoop fails ⟨[]⟩ d.cookies with
  | .error e => .error (e, d)
  | .ok s => .ok (s, d.quit)

/-! ## Lemmas about the cookie transfer -/

/-- The try/del/except block acts as a plain key-filter on the dict. -/
lemma tryDelItem_eq_filter (c : Cookie) (k : String) :
    tryDelItem c k = c.filter (fun p => !(p.1 == k)) := by
  unfold tryDelItem delItem
  by_cases h : hasKey c k = true
  · simp [h]
  · simp [h]
    have h2 : ∀ p ∈ c, (!(p.1 == k)) = true := by
      intro p hp
      simp only [hasKey, List.any_eq_true] at h
      push_neg at h
      simpa using h p hp
    exact (List.filter_eq_self.mpr h2).symm

/-- Cleaning a cookie removes exactly the httpOnly and expiry keys. -/
lemma cleanCookie_eq_filter (c : Cookie) :
    cleanCookie c = c.filter (fun p => !(p.1 == "httpOnly" || p.1 == "expiry")) := by
  show tryDelItem (tryDelItem c ("httpOnly")) ("expiry") = _
  rw [tryDelItem_eq_filter, tryDelItem_eq_filter, List.filter_filter]
  apply List.filter_congr
  intro p _
  cases h1 : p.1 == "httpOnly" <;> cases h2 : p.1 == "expiry" <;> simp [h1, h2]

/-- Characterization of the transfer for-loop: it fails exactly when the
external set call fails on some cleaned cookie, and otherwise appends all
cleaned cookies to the session jar in order. -/
lemma transferLoop_eq (fails : Cookie → Bool) (s : Session) (jar : List Cookie) :
    transferLoop fails s jar =
      if jar.any (fun c => fails (cleanCookie c))
      then .error ("set failed")
      else .ok ⟨s.cookies ++ jar.map cleanCookie⟩ := by
  induction jar generalizing s with
  | nil => simp [transferLoop]
  | cons c rest ih =>
    simp only [transferLoop, List.any_cons, List.map_cons]
    by_cases hf : fails (cleanCookie c) = true
    · simp [hf]
    · simp only [Bool.not_eq_true] at hf
      simp [hf, ih]

/-- Characterization of get_authenticated_session: on failure the driver is
returned unchanged (quit is never reached); on success every cleaned cookie
is in the session and the driver is closed. -/
lemma get_authenticated_session_eq (fails : Cookie → Bool) (d : Driver) :
    get_authenticated_session fails d =
      if d.cookies.any (fun c => fails (cleanCookie c))
      then .error ("set failed", d)
      else .ok (⟨d.cookies.map cleanCookie⟩, ⟨d.cookies, false⟩) := by
  unfold get_authenticated_session
  rw [transferLoop_eq]
  by_cases h : d.cookies.any (fun c => fails (cleanCookie c)) = true
  · simp [h]
  · simp only [Bool.not_eq_true] at h
    simp [h, Driver.quit]

/-- Claim C6: get_authenticated_session puts every browser cookie into the
new session with the httpOnly and expiry keys removed when present and all
other keys unchanged, raising no error whether or not those keys are
present; for the concrete cookie with name a, value 1, httpOnly, expiry and
domain keys, the resulting session jar contains a cookie with name a and
value 1. -/
theorem cookie_transfer_strips_invalid_keys :
    (∀ c : Cookie, cleanCookie c =
        c.filter (fun p => !(p.1 == "httpOnly" || p.1 == "expiry"))) ∧
    (∀ jar : List Cookie, get_authenticated_session (fun _ => false) ⟨jar, true⟩ =
        .ok (⟨jar.map cleanCookie⟩, ⟨jar, false⟩)) ∧
    (∃ s d2, get_authenticated_session (fun _ => false)
        ⟨[[("name", "a"), ("value", "1"), ("httpOnly", "true"),
           ("expiry", "123"), ("domain", "x")]], true⟩ = .ok (s, d2) ∧
      ∃ c ∈ s.cookies, ("name", "a") ∈ c ∧ ("value", "1") ∈ c) := by
  refine ⟨cleanCookie_eq_filter, ?_, ?_⟩
  · intro jar
    rw [get_authenticated_session_eq]
    simp
  · exact ⟨_, _, rfl, [("name", "a"), ("value", "1"), ("domain", "x")],
      by decide, by decide, by decide⟩

/-- Claim C7: get_authenticated_session performs no validation of the
authentication state: for every cookie-jar state of the open browser,
including the empty jar, it returns a session holding exactly the (cleaned)
cookies present, and the browser is closed in the returned state. -/
theorem get_authenticated_session_no_validation (jar : List Cookie) :
    get_authenticated_session (fun _ => false) ⟨jar, true⟩ =
      .ok (⟨jar.map cleanCookie⟩, ⟨jar, false⟩) := by
  rw [get_authenticated_session_eq]
  simp

/-- Claim C9: quit runs only after all cookies are transferred: when the
external set call fails on some cookie the error propagates with the driver
unchanged (still open, quit never called), and on success the returned
driver is closed and the session holds every cleaned cookie. -/
theorem get_authenticated_session_quit_order (fails : Cookie → Bool)
    (jar : List Cookie) (o : Bool) :
    get_authenticated_session fails ⟨jar, o⟩ =
      if jar.any (fun c => fails (cleanCookie c))
      then .error ("set failed", ⟨jar, o⟩)
      else .ok (⟨jar.map cleanCookie⟩, ⟨jar, false⟩) :=
  get_authenticated_session_eq fails ⟨jar, o⟩

/-! ## Lemmas about Comparable -/

/-- Members of the dedup of a key list are members of the key list. -/
lemma mem_of_mem_dedupKeysAux :
    ∀ {l seen : List String} {k : String}, k ∈ dedupKeysAux seen l → k ∈ l := by
  intro l
  induction l with
  | nil => intro seen k hm; simp [dedupKeysAux] at hm
  | cons a rest ih =>
    intro seen k hm
    cases hc : seen.contains a with
    | true =>
      rw [dedupKeysAux, hc] at hm
      exact List.mem_cons_of_mem _ (ih hm)
    | false =>
      rw [dedupKeysAux, hc] at hm
      rcases List.mem_cons.mp hm with hm | hm
      · simp [hm]
      · exact List.mem_cons_of_mem _ (ih hm)

/-- Instances agreeing on the declared attribute subset build the same
ordered key-to-value mapping. -/
lemma comparableData_eq_of_agree (x y : Comparable) (hattrs : x.attrs = y.attrs)
    (hvals : ∀ k ∈ x.attrs, x.attrVal k = y.attrVal k) :
    comparableData x = comparableData y := by
  unfold comparableData dedupKeys
  rw [hattrs]
  apply List.map_congr_left
  intro k hk
  have hk2 : k ∈ x.attrs := hattrs ▸ mem_of_mem_dedupKeysAux hk
  rw [hvals k hk2]

/-- Equality of two Comparable instances holds exactly when their hashes
agree (the code compares hash(self) with hash(other)). -/
lemma py_eq_true_iff (h : String → Int) (x y : Comparable) :
    py_eq h x (.cmp y) = .ok true ↔ pyHash h x = pyHash h y := by
  simp [py_eq]

/-- Claim C1: two Comparable instances with identical values on every
declared attribute (whatever their other, undeclared state) compare equal
and hash identically, for every model of the Python builtin hash. -/
theorem comparable_eq_and_hash_of_agree (h : String → Int) (x y : Comparable)
    (hattrs : x.attrs = y.attrs)
    (hvals : ∀ k ∈ x.attrs, x.attrVal k = y.attrVal k) :
    py_eq h x (.cmp y) = .ok true ∧ pyHash h x = pyHash h y := by
  have hd : pyHash h x = pyHash h y := by
    unfold pyHash
    rw [comparableData_eq_of_agree x y hattrs hvals]
  exact ⟨(py_eq_true_iff h x y).mpr hd, hd⟩

/-- Witness for C1 at concrete instances differing only in undeclared
state (the stored payload and an undeclared attribute). -/
theorem comparable_eq_and_hash_of_agree_w :
    py_eq (fun s => (s.length : Int))
        ⟨"p1", ["amount"], fun k => if k == "amount" then "5" else "x"⟩
        (.cmp ⟨"p2", ["amount"], fun k => if k == "amount" then "5" else "y"⟩) =
      .ok true ∧
    pyHash (fun s => (s.length : Int))
        ⟨"p1", ["amount"], fun k => if k == "amount" then "5" else "x"⟩ =
      pyHash (fun s => (s.length : Int))
        ⟨"p2", ["amount"], fun k => if k == "amount" then "5" else "y"⟩ :=
  comparable_eq_and_hash_of_agree (fun s => (s.length : Int)) _ _ rfl (by decide)

/-- Claim C2 fails as stated: under a colliding hash model, two instances
that differ in the declared attribute still compare equal, because __eq__
only compares the two hash values. -/
theorem comparable_ne_claim_cex :
    ("amount" ∈ (⟨"p", ["amount"], fun _ => "1"⟩ : Comparable).attrs) ∧
    (⟨"p", ["amount"], fun _ => "1"⟩ : Comparable).attrVal ("amount") ≠
      (⟨"q", ["amount"], fun _ => "2"⟩ : Comparable).attrVal ("amount") ∧
    py_eq (fun _ => (0 : Int)) ⟨"p", ["amount"], fun _ => "1"⟩
      (.cmp ⟨"q", ["amount"], fun _ => "2"⟩) = .ok true :=
  ⟨by decide, by decide, rfl⟩

/-- Claim C2 (amended): two instances that differ in at least one declared
attribute compare unequal provided their serialized declared-attribute
mappings have different hash values (absent a hash collision). -/
theorem comparable_eq_false_of_hash_ne (h : String → Int) (x y : Comparable)
    (hdiff : ∃ k ∈ x.attrs, x.attrVal k ≠ y.attrVal k)
    (hhash : pyHash h x ≠ pyHash h y) :
    py_eq h x (.cmp y) = .ok false := by
  simp [py_eq, hhash]

/-- Witness for amended C2 at concrete instances whose serializations have
different lengths, under the length hash model. -/
theorem comparable_eq_false_of_hash_ne_w :
    py_eq (fun s => (s.length : Int)) ⟨"p", ["amount"], fun _ => "1"⟩
      (.cmp ⟨"q", ["amount"], fun _ => "22"⟩) = .ok false :=
  comparable_eq_false_of_hash_ne (fun s => (s.length : Int))
    ⟨"p", ["amount"], fun _ => "1"⟩ ⟨"q", ["amount"], fun _ => "22"⟩
    ⟨"amount", by decide, by decide⟩ (by decide)

/-- Claim C3: comparing a Comparable instance to any non-Comparable object
raises ValueError in both the equality and the inequality check. -/
theorem comparable_raises_on_non_comparable (h : String → Int) (x : Comparable)
    (v : String) :
    py_eq h x (.other v) = .error ("Not a Comparable object") ∧
    py_ne h x (.other v) = .error ("Not a Comparable object") :=
  ⟨rfl, rfl⟩

/-- Claim C8: equality between Comparable instances holds exactly when the
hash values of their serialized declared-attribute mappings agree (so a hash
collision makes instances with different attribute values compare equal),
and equality is reflexive, symmetric and transitive. -/
theorem comparable_eq_iff_hash_eq (h : String → Int) (x y z : Comparable) :
    (py_eq h x (.cmp y) = .ok true ↔ pyHash h x = pyHash h y) ∧
    py_eq h x (.cmp x) = .ok true ∧
    (py_eq h x (.cmp y) = .ok true → py_eq h y (.cmp x) = .ok true) ∧
    (py_eq h x (.cmp y) = .ok true → py_eq h y (.cmp z) = .ok true →
      py_eq h x (.cmp z) = .ok true) := by
  refine ⟨py_eq_true_iff h x y, (py_eq_true_iff h x x).mpr rfl, ?_, ?_⟩
  · intro hxy
    exact (py_eq_true_iff h y x).mpr ((py_eq_true_iff h x y).mp hxy).symm
  · intro h1 h2
    exact (py_eq_true_iff h x z).mpr
      (((py_eq_true_iff h x y).mp h1).trans ((py_eq_true_iff h y z).mp h2))

/-- Witness for C8: under a colliding hash model, instances with different
declared attribute values compare equal by the hash-equality criterion. -/
theorem comparable_eq_iff_hash_eq_w :
    py_eq (fun _ => (0 : Int)) ⟨"p", ["amount"], fun _ => "1"⟩
      (.cmp ⟨"q", ["amount"], fun _ => "2"⟩) = .ok true :=
  (comparable_eq_iff_hash_eq (fun _ => (0 : Int)) ⟨"p", ["amount"], fun _ => "1"⟩
    ⟨"q", ["amount"], fun _ => "2"⟩ ⟨"q", ["amount"], fun _ => "2"⟩).1.mpr rfl

/-! ## Lemmas about Transaction._clean_up -/

/-- Every word produced by the splitter is a nonempty run of non-whitespace
characters drawn from the input (or from the pending accumulator). -/
lemma pySplitAux_words :
    ∀ (l acc : List Char), (∀ c ∈ acc, isPySpace c = false) →
      ∀ w ∈ pySplitAux l acc,
        w ≠ [] ∧ ∀ c ∈ w, isPySpace c = false ∧ (c ∈ l ∨ c ∈ acc) := by
  intro l
  induction l with
  | nil =>
    intro acc hacc w hw
    cases acc with
    | nil => simp [pySplitAux] at hw
    | cons a as =>
      simp only [pySplitAux, List.isEmpty_cons, List.mem_singleton] at hw
      subst hw
      refine ⟨by simp, ?_⟩
      intro c hc
      rw [List.mem_reverse] at hc
      exact ⟨hacc c hc, Or.inr hc⟩
  | cons c0 rest ih =>
    intro acc hacc w hw
    cases hsp : isPySpace c0 with
    | false =>
      simp only [pySplitAux, hsp] at hw
      obtain ⟨hne, hall⟩ := ih (c0 :: acc)
        (by
          intro c hc
          rcases List.mem_cons.mp hc with hc | hc
          · subst hc; exact hsp
          · exact hacc c hc) w hw
      refine ⟨hne, ?_⟩
      intro c hc
      obtain ⟨h1, h2⟩ := hall c hc
      rcases h2 with h2 | h2
      · exact ⟨h1, Or.inl (List.mem_cons_of_mem _ h2)⟩
      · rcases List.mem_cons.mp h2 with h2 | h2
        · subst h2; exact ⟨h1, Or.inl (List.mem_cons_self _ _)⟩
        · exact ⟨h1, Or.inr h2⟩
    | true =>
      cases acc with
      | nil =>
        simp only [pySplitAux, hsp, List.isEmpty_nil] at hw
        obtain ⟨hne, hall⟩ := ih [] (by simp) w hw
        refine ⟨hne, ?_⟩
        intro c hc
        obtain ⟨h1, h2⟩ := hall c hc
        rcases h2 with h2 | h2
        · exact ⟨h1, Or.inl (List.mem_cons_of_mem _ h2)⟩
        · simp at h2
      | cons a as =>
        simp only [pySplitAux, hsp, List.isEmpty_cons] at hw
        rcases List.mem_cons.mp hw with hw | hw
        · subst hw
          refine ⟨by simp, ?_⟩
          intro c hc
          rw [List.mem_reverse] at hc
          exact ⟨hacc c hc, Or.inr hc⟩
        · obtain ⟨hne, hall⟩ := ih [] (by simp) w hw
          refine ⟨hne, ?_⟩
          intro c hc
          obtain ⟨h1, h2⟩ := hall c hc
          rcases h2 with h2 | h2
          · exact ⟨h1, Or.inl (List.mem_cons_of_mem _ h2)⟩
          · simp at h2

/-- Joining a nonempty first word gives a nonempty result. -/
lemma joinWords_ne_nil {w : List Char} (hw : w ≠ []) (ws : List (List Char)) :
    joinWords (w :: ws) ≠ [] := by
  cases ws with
  | nil => simpa [joinWords] using hw
  | cons w2 ws2 => simp [joinWords]

/-- A list of non-whitespace characters has no whitespace run. -/
lemma noWsRunP_of_all_nonspace :
    ∀ {l : List Char}, (∀ c ∈ l, isPySpace c = false) → NoWsRun l := by
  intro l
  induction l with
  | nil => intro _; exact List.chain'_nil
  | cons a t ih =>
    intro h
    unfold NoWsRun
    rw [List.chain'_cons']
    refine ⟨?_, ?_⟩
    · intro y _ hcon
      exact Bool.false_ne_true ((h a (List.mem_cons_self a t)).symm.trans hcon.1)
    · exact ih (fun c hc => h c (List.mem_cons_of_mem _ hc))

/-- The executable and the relational no-whitespace-run predicates agree. -/
lemma noWsRun_iff : ∀ (l : List Char), noWsRun l = true ↔ NoWsRun l := by
  intro l
  induction l with
  | nil => simp [noWsRun, NoWsRun]
  | cons a t ih =>
    cases t with
    | nil => simp [noWsRun, NoWsRun]
    | cons b t2 =>
      unfold NoWsRun
      rw [noWsRun, Bool.and_eq_true, ih, List.chain'_cons]
      unfold NoWsRun
      cases ha : isPySpace a <;> cases hb : isPySpace b <;> simp [ha, hb]

/-- Every character of a join is a word character or the space separator. -/
lemma mem_joinWords :
    ∀ (W : List (List Char)) (c : Char), c ∈ joinWords W →
      (∃ w ∈ W, c ∈ w) ∨ c = spaceChar := by
  intro W
  induction W with
  | nil => intro c hc; simp [joinWords] at hc
  | cons w ws ih =>
    intro c hc
    cases ws with
    | nil =>
      simp only [joinWords] at hc
      exact Or.inl ⟨w, by simp, hc⟩
    | cons w2 ws2 =>
      simp only [joinWords] at hc
      rcases List.mem_append.mp hc with hc | hc
      · exact Or.inl ⟨w, by simp, hc⟩
      · rcases List.mem_cons.mp hc with hc | hc
        · exact Or.inr hc
        · rcases ih c hc with ⟨w3, hw3, hcw3⟩ | hsp
          · exact Or.inl ⟨w3, List.mem_cons_of_mem _ hw3, hcw3⟩
          · exact Or.inr hsp

/-- Joining nonempty all-non-whitespace words with single spaces yields a
string with no whitespace run and no leading or trailing whitespace. -/
lemma joinWords_props :
    ∀ (W : List (List Char)),
      (∀ w ∈ W, w ≠ [] ∧ ∀ c ∈ w, isPySpace c = false) →
      NoWsRun (joinWords W) ∧
      (∀ c ∈ (joinWords W).head?, isPySpace c = false) ∧
      (∀ c ∈ (joinWords W).getLast?, isPySpace c = false) := by
  intro W
  induction W with
  | nil =>
    intro _
    refine ⟨List.chain'_nil, ?_, ?_⟩ <;> simp [joinWords]
  | cons w ws ih =>
    intro hW
    obtain ⟨hwne, hwns⟩ := hW w (List.mem_cons_self _ _)
    cases ws with
    | nil =>
      simp only [joinWords]
      refine ⟨noWsRunP_of_all_nonspace hwns, ?_, ?_⟩
      · intro c hc
        cases w with
        | nil => exact absurd rfl hwne
        | cons a t =>
          simp at hc
          subst hc
          exact hwns a (by simp)
      · intro c hc
        rcases List.mem_getLast?_eq_getLast hc with ⟨hne, hceq⟩
        subst hceq
        exact hwns _ (List.getLast_mem hne)
    | cons w2 ws2 =>
      obtain ⟨ihchain, ihhead, ihlast⟩ :=
        ih (fun w3 hw3 => hW w3 (List.mem_cons_of_mem _ hw3))
      obtain ⟨hw2ne, _⟩ := hW w2 (List.mem_cons_of_mem _ (List.mem_cons_self _ _))
      have hJne : joinWords (w2 :: ws2) ≠ [] := joinWords_ne_nil hw2ne ws2
      simp only [joinWords]
      refine ⟨?_, ?_, ?_⟩
      · unfold NoWsRun
        rw [List.chain'_append]
        refine ⟨noWsRunP_of_all_nonspace hwns, ?_, ?_⟩
        · rw [List.chain'_cons']
          refine ⟨?_, ihchain⟩
          intro y hy hcon
          exact Bool.false_ne_true ((ihhead y hy).symm.trans hcon.2)
        · intro x hx y hy
          simp at hy
          subst hy
          intro hcon
          rcases List.mem_getLast?_eq_getLast hx with ⟨hne, hxeq⟩
          subst hxeq
          exact Bool.false_ne_true ((hwns _ (List.getLast_mem hne)).symm.trans hcon.1)
      · intro c hc
        cases w with
        | nil => exact absurd rfl hwne
        | cons a t =>
          simp at hc
          subst hc
          exact hwns a (by simp)
      · intro c hc
        rw [List.getLast?_append_of_ne_nil w (by simp)] at hc
        have hsplit : spaceChar :: joinWords (w2 :: ws2) =
            [spaceChar] ++ joinWords (w2 :: ws2) := rfl
        rw [hsplit, List.getLast?_append_of_ne_nil _ hJne] at hc
        exact ihlast c hc

/-- Head and last facts give the executable stripped predicate. -/
lemma strippedWs_eq_true {l : List Char}
    (h1 : ∀ c ∈ l.head?, isPySpace c = false)
    (h2 : ∀ c ∈ l.getLast?, isPySpace c = false) :
    strippedWs l = true := by
  unfold strippedWs
  rw [Bool.and_eq_true]
  constructor
  · cases hh : l.head? with
    | none => rfl
    | some c => simp [h1 c (Option.mem_def.mpr hh)]
  · cases hg : l.getLast? with
    | none => rfl
    | some c => simp [h2 c (Option.mem_def.mpr hg)]

/-- The character list underlying the sanitized string. -/
lemma clean_up_data (s : String) :
    (Transaction.clean_up s).data =
      (joinWords (pySplit s.data)).filter (fun c => !(c == nulChar)) := rfl

/-- The sanitizer output never contains the NUL character. -/
lemma clean_up_noNul_aux (s : String) :
    noNul (Transaction.clean_up s).data = true := by
  rw [clean_up_data]
  unfold noNul
  rw [List.all_eq_true]
  intro c hc
  exact (List.mem_filter.mp hc).2

/-- Claim C10: _clean_up is a total function on strings whose output never
contains a NUL character, for every input string. -/
theorem clean_up_no_nul (s : String) :
    noNul (Transaction.clean_up s).data = true := clean_up_noNul_aux s

/-- Claim C4 fails as stated: on the input with two leading spaces, A, NUL,
B, three spaces, C and a trailing space, _clean_up does not return
"A B C".  NUL is not whitespace in Python, so the A-NUL-B run is a single
word; the NUL is removed only after the join. -/
theorem clean_up_example_cex :
    Transaction.clean_up ("  A\x00B   C ") ≠ "A B C" := by decide

/-- Claim C4 (amended): on that input _clean_up returns "AB C". -/
theorem clean_up_example_value :
    Transaction.clean_up ("  A\x00B   C ") = "AB C" := by decide

/-- Claim C5 fails as stated: a NUL character surrounded by spaces survives
the whitespace collapse as a one-character word and is removed only
afterwards, leaving a double space (or leading whitespace). -/
theorem clean_up_wsrun_cex :
    Transaction.clean_up ("A \x00 B") = "A  B" ∧
    noWsRun (Transaction.clean_up ("A \x00 B")).data = false ∧
    strippedWs (Transaction.clean_up ("\x00 A")).data = false :=
  ⟨by decide, by decide, by decide⟩

/-- Claim C5 (amended): the sanitizer output never contains NUL; and for
every input that contains no NUL character, the output additionally has no
leading or trailing whitespace and no run of two or more consecutive
whitespace characters. -/
theorem clean_up_sanitize_props (s : String) :
    noNul (Transaction.clean_up s).data = true ∧
    (noNul s.data = true →
      strippedWs (Transaction.clean_up s).data = true ∧
      noWsRun (Transaction.clean_up s).data = true) := by
  refine ⟨clean_up_noNul_aux s, ?_⟩
  intro hnn
  have hwords : ∀ w ∈ pySplit s.data, w ≠ [] ∧ ∀ c ∈ w, isPySpace c = false := by
    intro w hw
    obtain ⟨hne, hall⟩ := pySplitAux_words s.data [] (by simp) w hw
    exact ⟨hne, fun c hc => (hall c hc).1⟩
  have hchars : ∀ c ∈ joinWords (pySplit s.data), (!(c == nulChar)) = true := by
    intro c hc
    rcases mem_joinWords _ c hc with ⟨w, hw, hcw⟩ | hceq
    · obtain ⟨_, hall⟩ := pySplitAux_words s.data [] (by simp) w hw
      rcases (hall c hcw).2 with hcl | hcl
      · unfold noNul at hnn
        rw [List.all_eq_true] at hnn
        exact hnn c hcl
      · simp at hcl
    · subst hceq
      decide
  have hfil : (joinWords (pySplit s.data)).filter (fun c => !(c == nulChar)) =
      joinWords (pySplit s.data) := List.filter_eq_self.mpr hchars
  have hprops := joinWords_props (pySplit s.data) hwords
  constructor
  · rw [clean_up_data, hfil]
    exact strippedWs_eq_true hprops.2.1 hprops.2.2
  · rw [clean_up_data, hfil]
    exact (noWsRun_iff _).mpr hprops.1

/-- Witness for amended C5 at a NUL-free input with extra whitespace. -/
theorem clean_up_sanitize_props_w :
    noNul (" A  B ").data = true ∧
    strippedWs (Transaction.clean_up (" A  B ")).data = true ∧
    noWsRun (Transaction.clean_up (" A  B ")).data = true :=
  ⟨by decide, (clean_up_sanitize_props (" A  B ")).2 (by decide)⟩

end Ynab
